import Mathlib

set_option maxRecDepth 100000

/-!
Verification of the input-accessor / canonical-archive core of the fetcher
library against its source (input-accessor.cc and fetchers.hh).

The embedding below translates the source into Lean:

* CanonPath is the external canonical-path primitive (absolute, normalized,
  segment-based, no empty segments expected from real directory listings).
* The canonical archive serializer InputAccessor::dumpPath is embedded as a
  pure function over the tree exposed by an accessor.  Trees are the
  inductive FSObject; a directory node carries its children in the native
  enumeration order of the backing store, and the serializer sorts them via
  the same keep-first ordered-map insertion the source performs when it
  builds DirEntries and the unhacked map (std::map emplace).
* The sandbox accessor FSInputAccessorImpl is embedded with the physical
  filesystem abstracted as a record of operations (RealFS), since the
  underlying nix::readFile, nix::lstat, CanonPath::resolveSymlinks and
  friends are external collaborators of this core.
-/

/-! ## Canonical paths (external primitive) -/

/-- An absolute, normalized path: a sequence of segments.  Real directory
entries produce nonempty segments. -/
structure CanonPath where
  segments : List String
deriving DecidableEq, Repr

/-- Path concatenation (CanonPath operator+ with a path argument). -/
def CanonPath.append (p q : CanonPath) : CanonPath :=
  ⟨p.segments ++ q.segments⟩

/-- Appending one segment (CanonPath operator+ with a string argument). -/
def CanonPath.push (p : CanonPath) (name : String) : CanonPath :=
  ⟨p.segments ++ [name]⟩

/-- The rendered absolute form of a path: "/" for the root, otherwise
"/seg1/seg2/...". -/
def CanonPath.abs (p : CanonPath) : String :=
  if p.segments.isEmpty then "/"
  else p.segments.foldl (fun acc s => acc ++ "/" ++ s) ""

/-- Containment: a path lies within a parent when the parent segments are an
initial segment of its own (a path lies within itself). -/
def CanonPath.isWithin (p parent : CanonPath) : Bool :=
  parent.segments.isPrefixOf p.segments

/-- Drop a parent from the front of a path contained in it (the source calls
this removing the prefix held by the sandbox root). -/
def CanonPath.dropRoot (p parent : CanonPath) : CanonPath :=
  ⟨p.segments.drop parent.segments.length⟩

/-- Modelled from the spec: CanonPath::isAllowed over a set of allowed
paths is not part of the given source; per the spec a path passes when it
"is contained in (or is an ancestor permitting descent into) some allowed
entry". -/
def CanonPath.isAllowed (p : CanonPath) (allowed : List CanonPath) : Bool :=
  allowed.any (fun a => p.isWithin a || a.isWithin p)

/-! ## Stat and error taxonomy -/

inductive FType where
  | tRegular
  | tDirectory
  | tSymlink
  | tMisc
deriving DecidableEq, Repr

structure Stat where
  type : FType
  isExecutable : Bool
deriving DecidableEq, Repr

/-- dirent type tags delivered by the underlying readDirectory. -/
inductive DT where
  | dtReg
  | dtLnk
  | dtDir
  | dtUnknown
deriving DecidableEq, Repr

/-- Failure taxonomy of the accessor operations. -/
inductive Err where
  | forbidden (path : CanonPath)
  | doesNotExist (path : CanonPath)
  | unimplemented (op : String)
deriving DecidableEq, Repr

/-! ## Byte-level archive primitives

The sink writes length-prefixed, zero-padded fields: an unsigned 64-bit
little-endian integer for lengths, and each string as length, bytes, then
padding up to the next multiple of 8. -/

/-- Bytes of a string (its character codes; all tokens here are ASCII). -/
def str (s : String) : List Nat :=
  s.data.map Char.toNat

/-- A 64-bit little-endian integer field. -/
def wInt (n : Nat) : List Nat :=
  [n % 256, n / 256 % 256, n / 256 ^ 2 % 256, n / 256 ^ 3 % 256,
   n / 256 ^ 4 % 256, n / 256 ^ 5 % 256, n / 256 ^ 6 % 256, n / 256 ^ 7 % 256]

/-- Zero padding bringing a field of the given size up to an 8-byte
boundary (writePadding). -/
def padding (n : Nat) : List Nat :=
  List.replicate ((8 - n % 8) % 8) 0

/-- A length-prefixed, padded string field (the sink shift operator on
strings). -/
def wStr (s : List Nat) : List Nat :=
  wInt s.length ++ s ++ padding s.length

/-- The magic header token. -/
def narVersionMagic1 : String := "nix-archive-1"

/-! ## The tree exposed by an accessor, and the serializer -/

/-- The tree of one accessor as the serializer observes it through lstat,
readFile, readDirectory and readLink.  Directory children are listed in the
native enumeration order of the backing store. -/
inductive FSObject where
  | regular (isExecutable : Bool) (contents : List Nat)
  | directory (entries : List (String × FSObject))
  | symlink (target : String)
  | misc

/-- Lexicographic order on byte sequences, the order std::map keys
follow. -/
def bytesLt : List Nat → List Nat → Bool
  | _, [] => false
  | [], _ :: _ => true
  | a :: as, b :: bs => a < b || (a == b && bytesLt as bs)

/-- The std::string strict order: byte-wise lexicographic comparison. -/
def strLt (a b : String) : Bool :=
  bytesLt (str a) (str b)

/-- Keep-first ordered insertion of one key/value pair, as std::map
emplace behaves: an existing equal key keeps its old value. -/
def emplace (k : String) (v : α) : List (String × α) → List (String × α)
  | [] => [(k, v)]
  | (k₂, v₂) :: rest =>
    if strLt k k₂ then (k, v) :: (k₂, v₂) :: rest
    else if k = k₂ then (k₂, v₂) :: rest
    else (k₂, v₂) :: emplace k v rest

/-- Build the ordered map of a whole entry list, in list order (the loop
that fills DirEntries, and the loop that fills the unhacked map; with the
case hack disabled the latter maps every name to itself). -/
def mapInsertAll (l : List (String × α)) : List (String × α) :=
  l.foldl (fun m e => emplace e.1 e.2 m) []

/-- One emitted entry record, wrapping a serialized child and followed by
the rest of the directory body. -/
def entryRecord (name : String) (nodeOut restOut : List Nat) : List Nat :=
  wStr (str "entry") ++ wStr (str "(") ++ wStr (str "name") ++
    wStr (str name) ++ wStr (str "node") ++ nodeOut ++ wStr (str ")") ++
    restOut

/-- Emit the sorted directory entries: for each child whose full path the
filter accepts, an entry record wrapping the already-serialized child node;
a rejected child is omitted entirely.  A child whose own dump failed (an
unsupported file type below) fails the whole directory, exactly as the
thrown error would propagate. -/
def assembleEntries (filter : String → Bool) (path : CanonPath) :
    List (String × Option (List Nat)) → Option (List Nat)
  | [] => some []
  | (name, node) :: rest =>
    if filter (CanonPath.abs (path.push name)) then
      Option.bind node (fun nodeOut =>
        Option.map (fun restOut => entryRecord name nodeOut restOut)
          (assembleEntries filter path rest))
    else assembleEntries filter path rest

mutual

/-- The recursive dump of one node (the inner lambda of dumpPath).  The
result is none exactly when the walk reaches a node of unsupported type
(the source throws there).  In this pure embedding the children of a
directory are serialized by renderEntries and then sorted with the same
keep-first map insertion the source applies to the entry names; since that
insertion looks only at names, sorting before or after serializing the
children yields the same stream, and a child the filter rejects is dropped
by assembleEntries without looking at its serialization. -/
def dump (filter : String → Bool) (path : CanonPath) : FSObject → Option (List Nat)
  | .regular isExecutable contents =>
    some (wStr (str "(") ++ wStr (str "type") ++ wStr (str "regular") ++
      (if isExecutable then wStr (str "executable") ++ wStr (str "") else []) ++
      wStr (str "contents") ++ wInt contents.length ++ contents ++
      padding contents.length ++ wStr (str ")"))
  | .directory entries =>
    (assembleEntries filter path
        (mapInsertAll (renderEntries filter path entries))).map
      (fun body => wStr (str "(") ++ wStr (str "type") ++
        wStr (str "directory") ++ body ++ wStr (str ")"))
  | .symlink target =>
    some (wStr (str "(") ++ wStr (str "type") ++ wStr (str "symlink") ++
      wStr (str "target") ++ wStr (str target) ++ wStr (str ")"))
  | .misc => none

/-- Serialize each child of a directory, keeping its name. -/
def renderEntries (filter : String → Bool) (path : CanonPath) :
    List (String × FSObject) → List (String × Option (List Nat))
  | [] => []
  | (name, child) :: rest =>
    (name, dump filter (path.push name) child) :: renderEntries filter path rest

end

/-- InputAccessor::dumpPath: the magic header token followed by the dump of
the root node. -/
def dumpPath (filter : String → Bool) (path : CanonPath) (t : FSObject) :
    Option (List Nat) :=
  (dump filter path t).map (fun s => wStr (str narVersionMagic1) ++ s)

mutual

/-- The canonical form of a tree: every directory holds its children in the
sorted keep-first map order.  Two trees have equal canonical forms exactly
when an accessor enumerating either of them exposes the same ordered map at
every directory. -/
def normalizeTree : FSObject → FSObject
  | .regular isExecutable contents => .regular isExecutable contents
  | .directory entries => .directory (mapInsertAll (normalizeEntries entries))
  | .symlink target => .symlink target
  | .misc => .misc

def normalizeEntries : List (String × FSObject) → List (String × FSObject)
  | [] => []
  | (name, child) :: rest => (name, normalizeTree child) :: normalizeEntries rest

end

mutual

/-- Well-formed trees: every directory entry name is nonempty, as canonical
paths and real directory listings guarantee. -/
def wfTree : FSObject → Bool
  | .directory entries => wfEntries entries
  | _ => true

def wfEntries : List (String × FSObject) → Bool
  | [] => true
  | (name, child) :: rest => name.length != 0 && wfTree child && wfEntries rest

end

/-! ## The virtual accessor interface and the sandbox accessor

The underlying physical filesystem operations (nix::readFile, nix::lstat,
nix::pathExists, nix::readDirectory, nix::readLink and symlink resolution)
are external collaborators; they are abstracted as a record of operations,
and the accessor methods from the source are defined over any such
record. -/

/-- The physical filesystem as the sandbox accessor sees it.  Symlink
resolution returns none when it fails (dangling symlink, missing
intermediate component), matching the caught error in makeAbsPath. -/
structure RealFS where
  resolveSymlinks : CanonPath → Option CanonPath
  readFile : CanonPath → Except Err (List Nat)
  pathExists : CanonPath → Bool
  lstat : CanonPath → Except Err Stat
  readDirectory : CanonPath → Except Err (List (String × DT))
  readLink : CanonPath → Except Err String

/-- The base accessor state: the instance number drawn from the
process-wide counter at construction. -/
structure InputAccessor where
  number : Nat

/-- InputAccessor::showPath, the default diagnostic label. -/
def InputAccessor.showPath (acc : InputAccessor) (path : CanonPath) : String :=
  "/virtual/" ++ Nat.repr acc.number ++ path.abs

/-- The sandbox accessor state: a physical root and an optional allow-list
of root-relative paths. -/
structure FSInputAccessorImpl where
  root : CanonPath
  allowedPaths : Option (List CanonPath)
deriving DecidableEq, Repr

namespace FSInputAccessorImpl

/-- FSInputAccessorImpl::isAllowed. -/
def isAllowed (a : FSInputAccessorImpl) (absPath : CanonPath) : Bool :=
  if !(absPath.isWithin a.root) then false
  else
    match a.allowedPaths with
    | some allowed =>
      if !((absPath.dropRoot a.root).isAllowed allowed) then false else true
    | none => true

/-- FSInputAccessorImpl::checkAllowed: fails Forbidden unless allowed. -/
def checkAllowed (a : FSInputAccessorImpl) (absPath : CanonPath) :
    Except Err Unit :=
  if !(isAllowed a absPath) then .error (.forbidden absPath) else .ok ()

/-- FSInputAccessorImpl::makeAbsPath: concatenate the root and the path,
then resolve symlinks, falling back to the unresolved concatenation when
resolution fails. -/
def makeAbsPath (fs : RealFS) (a : FSInputAccessorImpl) (path : CanonPath) :
    CanonPath :=
  let p := a.root.append path
  match fs.resolveSymlinks p with
  | some r => r
  | none => p

/-- FSInputAccessorImpl::readFile. -/
def readFile (fs : RealFS) (a : FSInputAccessorImpl) (path : CanonPath) :
    Except Err (List Nat) :=
  let absPath := makeAbsPath fs a path
  match checkAllowed a absPath with
  | .error e => .error e
  | .ok _ => fs.readFile absPath

/-- FSInputAccessorImpl::pathExists: allowed and physically present. -/
def pathExists (fs : RealFS) (a : FSInputAccessorImpl) (path : CanonPath) :
    Bool :=
  let absPath := makeAbsPath fs a path
  isAllowed a absPath && fs.pathExists absPath

/-- FSInputAccessorImpl::lstat (the stat-word translation of the source is
folded into the RealFS record). -/
def lstat (fs : RealFS) (a : FSInputAccessorImpl) (path : CanonPath) :
    Except Err Stat :=
  let absPath := makeAbsPath fs a path
  match checkAllowed a absPath with
  | .error e => .error e
  | .ok _ => fs.lstat absPath

/-- The dirent-tag translation in FSInputAccessorImpl::readDirectory: the
switch covers regular, symlink and directory and leaves anything else
unresolved. -/
def dtToType : DT → Option FType
  | .dtReg => some .tRegular
  | .dtLnk => some .tSymlink
  | .dtDir => some .tDirectory
  | .dtUnknown => none

/-- FSInputAccessorImpl::readDirectory: after the sandbox check, each
native entry is kept only when its own path is allowed, and the kept
entries fill an ordered map. -/
def readDirectory (fs : RealFS) (a : FSInputAccessorImpl) (path : CanonPath) :
    Except Err (List (String × Option FType)) :=
  let absPath := makeAbsPath fs a path
  match checkAllowed a absPath with
  | .error e => .error e
  | .ok _ =>
    match fs.readDirectory absPath with
    | .error e => .error e
    | .ok entries =>
      .ok (mapInsertAll (entries.filterMap (fun e =>
        if isAllowed a (absPath.push e.1) then some (e.1, dtToType e.2)
        else none)))

/-- FSInputAccessorImpl::readLink. -/
def readLink (fs : RealFS) (a : FSInputAccessorImpl) (path : CanonPath) :
    Except Err String :=
  let absPath := makeAbsPath fs a path
  match checkAllowed a absPath with
  | .error e => .error e
  | .ok _ => fs.readLink absPath

/-- FSInputAccessorImpl::allowPath: insert into the allow-list when one is
configured, otherwise do nothing. -/
def allowPath (a : FSInputAccessorImpl) (path : CanonPath) :
    FSInputAccessorImpl :=
  match a.allowedPaths with
  | some allowed => { a with allowedPaths := some (path :: allowed) }
  | none => a

/-- FSInputAccessorImpl::hasAccessControl. -/
def hasAccessControl (a : FSInputAccessorImpl) : Bool :=
  a.allowedPaths.isSome

/-- FSInputAccessorImpl::showPath: the real absolute filesystem path. -/
def showPath (a : FSInputAccessorImpl) (path : CanonPath) : String :=
  (a.root.append path).abs

end FSInputAccessorImpl

/-! ## The synthetic in-memory accessor -/

/-- The in-memory accessor state: an explicit ordered map from path to
content. -/
structure MemoryInputAccessorImpl where
  files : List (CanonPath × String)
deriving DecidableEq, Repr

namespace MemoryInputAccessorImpl

/-- MemoryInputAccessorImpl::readFile: a map lookup; a missing path is an
error. -/
def readFile (m : MemoryInputAccessorImpl) (path : CanonPath) :
    Except Err String :=
  match m.files.lookup path with
  | some contents => .ok contents
  | none => .error (.doesNotExist path)

/-- MemoryInputAccessorImpl::pathExists: a map lookup. -/
def pathExists (m : MemoryInputAccessorImpl) (path : CanonPath) : Bool :=
  (m.files.lookup path).isSome

/-- MemoryInputAccessorImpl::lstat: always unimplemented. -/
def lstat (_ : MemoryInputAccessorImpl) (_ : CanonPath) : Except Err Stat :=
  .error (.unimplemented "MemoryInputAccessor::lstat")

/-- MemoryInputAccessorImpl::readDirectory: always empty. -/
def readDirectory (_ : MemoryInputAccessorImpl) (_ : CanonPath) :
    Except Err (List (String × Option FType)) :=
  .ok []

/-- MemoryInputAccessorImpl::readLink: always unimplemented. -/
def readLink (_ : MemoryInputAccessorImpl) (_ : CanonPath) :
    Except Err String :=
  .error (.unimplemented "MemoryInputAccessor::readLink")

/-- MemoryInputAccessorImpl::addFile: emplace, keeping an existing
entry. -/
def addFile (m : MemoryInputAccessorImpl) (path : CanonPath)
    (contents : String) : MemoryInputAccessorImpl :=
  if (m.files.lookup path).isSome then m
  else { files := m.files ++ [(path, contents)] }

end MemoryInputAccessorImpl

/-! ## Inputs and schemes (fetchers.hh) -/

/-- Scalar attribute values (attrs.hh). -/
inductive AttrValue where
  | string (s : String)
  | int (n : Nat)
  | boolean (b : Bool)
deriving DecidableEq, Repr

/-- The Input value type: an attribute set, optionally tied to the scheme
that recognized it; only attrs matter for equality. -/
structure Input where
  attrs : List (String × AttrValue)
deriving DecidableEq, Repr

/-- The InputScheme capability set, restricted to what the claims need:
the two mandatory recognizers and the optional classification queries with
their declared default implementations (isDirect true, isLocked false,
isRelative none). -/
structure InputScheme where
  inputFromURL : String → Option Input
  inputFromAttrs : List (String × AttrValue) → Option Input
  isDirect : Input → Bool := fun _ => true
  isLocked : Input → Bool := fun _ => false
  isRelative : Input → Option String := fun _ => none

/-! ## Order facts for the byte-wise string comparison -/

theorem charToNat_inj : Function.Injective Char.toNat :=
  StrictMono.injective fun _ _ h => h

theorem str_inj : Function.Injective str := by
  intro a b h
  have h2 : a.data = b.data := List.map_injective_iff.mpr charToNat_inj h
  cases a; cases b; exact congrArg String.mk h2

theorem bytesLt_irrefl : ∀ l, bytesLt l l = false
  | [] => rfl
  | _ :: as => by simp [bytesLt, bytesLt_irrefl as]

theorem bytesLt_conn : ∀ x y, bytesLt x y = false → bytesLt y x = false → x = y
  | [], [], _, _ => rfl
  | [], _ :: _, h, _ => by simp [bytesLt] at h
  | _ :: _, [], _, h => by simp [bytesLt] at h
  | a :: as, b :: bs, h, h₂ => by
    simp [bytesLt] at h h₂
    obtain ⟨h₃, h₄⟩ := h
    obtain ⟨h₅, h₆⟩ := h₂
    have hab : a = b := by omega
    subst hab
    simp at h₄ h₆
    rw [bytesLt_conn as bs h₄ h₆]

theorem bytesLt_trans :
    ∀ x y z, bytesLt x y = true → bytesLt y z = true → bytesLt x z = true
  | _, _, [], _, h => by simp [bytesLt] at h
  | [], _ :: _, _ :: _, _, _ => rfl
  | _ :: _, [], _ :: _, h, _ => by simp [bytesLt] at h
  | [], [], _ :: _, h, _ => by simp [bytesLt] at h
  | a :: as, b :: bs, c :: cs, h, h₂ => by
    simp [bytesLt] at h h₂ ⊢
    rcases h with h | ⟨rfl, h⟩ <;> rcases h₂ with h₂ | ⟨rfl, h₂⟩
    · omega
    · omega
    · omega
    · exact Or.inr ⟨rfl, bytesLt_trans as bs cs h h₂⟩

theorem bytesLt_asymm (x y : List Nat) (h : bytesLt x y = true) :
    bytesLt y x = false := by
  by_contra h₂
  simp only [Bool.not_eq_false] at h₂
  have h₃ := bytesLt_trans x y x h h₂
  rw [bytesLt_irrefl] at h₃
  exact Bool.false_ne_true h₃

theorem strLt_irrefl (a : String) : strLt a a = false :=
  bytesLt_irrefl (str a)

theorem strLt_trans {a b c : String} (h : strLt a b = true)
    (h₂ : strLt b c = true) : strLt a c = true :=
  bytesLt_trans (str a) (str b) (str c) h h₂

theorem strLt_asymm {a b : String} (h : strLt a b = true) :
    strLt b a = false :=
  bytesLt_asymm (str a) (str b) h

theorem strLt_conn {a b : String} (h : strLt a b = false)
    (h₂ : strLt b a = false) : a = b :=
  str_inj (bytesLt_conn (str a) (str b) h h₂)

/-- Strict totality used below: two different keys compare one way or the
other. -/
theorem strLt_of_not_lt_of_ne {a b : String} (h : strLt a b = false)
    (h₂ : a ≠ b) : strLt b a = true := by
  cases h₃ : strLt b a
  · exact absurd (strLt_conn h h₃) h₂
  · rfl

/-! ## Ordered-map lemmas for emplace and mapInsertAll -/

/-- Strictly increasing keys, the invariant of the embedded std::map. -/
def sortedKeys (l : List (String × α)) : Prop :=
  List.Pairwise (fun x y => strLt x.1 y.1 = true) l

theorem mem_emplace {k : String} {v : α} :
    ∀ {m : List (String × α)} {x}, x ∈ emplace k v m → x = (k, v) ∨ x ∈ m := by
  intro m
  induction m with
  | nil => intro x hx; simp [emplace] at hx; exact Or.inl hx
  | cons hd tl ih =>
    intro x hx
    obtain ⟨k₂, v₂⟩ := hd
    simp only [emplace] at hx
    split at hx
    · rcases List.mem_cons.mp hx with hx | hx
      · exact Or.inl hx
      · exact Or.inr hx
    · split at hx
      · exact Or.inr hx
      · rcases List.mem_cons.mp hx with hx | hx
        · exact Or.inr (by rw [hx]; exact List.mem_cons_self _ _)
        · rcases ih hx with hx | hx
          · exact Or.inl hx
          · exact Or.inr (List.mem_cons_of_mem _ hx)

theorem emplace_sortedKeys {k : String} {v : α} :
    ∀ {m : List (String × α)}, sortedKeys m → sortedKeys (emplace k v m) := by
  intro m
  induction m with
  | nil => intro _; simp [emplace, sortedKeys]
  | cons hd tl ih =>
    intro hs
    obtain ⟨k₂, v₂⟩ := hd
    simp only [sortedKeys, List.pairwise_cons] at hs
    obtain ⟨hhd, htl⟩ := hs
    simp only [emplace]
    split
    · rename_i hlt
      simp only [sortedKeys, List.pairwise_cons]
      refine ⟨?_, ?_, ?_⟩
      · intro y hy
        rcases List.mem_cons.mp hy with hy | hy
        · rw [hy]; exact hlt
        · exact strLt_trans hlt (hhd y hy)
      · exact hhd
      · exact htl
    · split
      · simp only [sortedKeys, List.pairwise_cons]; exact ⟨hhd, htl⟩
      · rename_i hnlt hne
        simp only [Bool.not_eq_true] at hnlt
        simp only [sortedKeys, List.pairwise_cons]
        constructor
        · intro y hy
          rcases mem_emplace hy with hy | hy
          · rw [hy]
            exact strLt_of_not_lt_of_ne hnlt hne
          · exact hhd y hy
        · exact ih htl

theorem emplace_of_all_lt {k : String} {v : α} :
    ∀ {m : List (String × α)}, (∀ x ∈ m, strLt x.1 k = true) →
      emplace k v m = m ++ [(k, v)] := by
  intro m
  induction m with
  | nil => intro _; rfl
  | cons hd tl ih =>
    intro hall
    obtain ⟨k₂, v₂⟩ := hd
    have hk₂ : strLt k₂ k = true := hall (k₂, v₂) (List.mem_cons_self _ _)
    have h₁ : strLt k k₂ = false := strLt_asymm hk₂
    have h₂ : k ≠ k₂ := by
      intro he; rw [he, strLt_irrefl] at hk₂; exact Bool.false_ne_true hk₂
    rw [emplace, if_neg (by simp [h₁]), if_neg h₂,
      ih (fun x hx => hall x (List.mem_cons_of_mem _ hx))]
    simp

theorem foldl_emplace_of_sorted :
    ∀ (l acc : List (String × α)), sortedKeys (acc ++ l) →
      l.foldl (fun m e => emplace e.1 e.2 m) acc = acc ++ l := by
  intro l
  induction l with
  | nil => intro acc _; simp
  | cons hd tl ih =>
    intro acc hs
    obtain ⟨k, v⟩ := hd
    have hall : ∀ x ∈ acc, strLt x.1 k = true := by
      intro x hx
      exact (List.pairwise_append.mp hs).2.2 x hx (k, v) (List.mem_cons_self _ _)
    simp only [List.foldl_cons]
    rw [emplace_of_all_lt hall]
    have hs₂ : sortedKeys ((acc ++ [(k, v)]) ++ tl) := by
      rw [List.append_assoc, List.singleton_append]
      exact hs
    rw [ih (acc ++ [(k, v)]) hs₂, List.append_assoc, List.singleton_append]

theorem foldl_emplace_sortedKeys :
    ∀ (l acc : List (String × α)), sortedKeys acc →
      sortedKeys (l.foldl (fun m e => emplace e.1 e.2 m) acc) := by
  intro l
  induction l with
  | nil => intro acc h; exact h
  | cons hd tl ih =>
    intro acc h
    exact ih _ (emplace_sortedKeys h)

theorem mapInsertAll_sortedKeys (l : List (String × α)) :
    sortedKeys (mapInsertAll l) :=
  foldl_emplace_sortedKeys l [] (by simp [sortedKeys])

theorem mapInsertAll_idem (l : List (String × α)) :
    mapInsertAll (mapInsertAll l) = mapInsertAll l := by
  have := foldl_emplace_of_sorted (α := α) (mapInsertAll l) []
    (by simpa using mapInsertAll_sortedKeys l)
  simpa [mapInsertAll] using this

theorem mem_foldl_emplace :
    ∀ (l acc : List (String × α)) (x), x ∈ l.foldl (fun m e => emplace e.1 e.2 m) acc →
      x ∈ acc ∨ x ∈ l := by
  intro l
  induction l with
  | nil => intro acc x h; exact Or.inl h
  | cons hd tl ih =>
    intro acc x h
    rcases ih _ x h with h | h
    · rcases mem_emplace h with h | h
      · right; rw [h]; exact List.mem_cons_self _ _
      · exact Or.inl h
    · exact Or.inr (List.mem_cons_of_mem _ h)

theorem mem_mapInsertAll {l : List (String × α)} {x} (h : x ∈ mapInsertAll l) :
    x ∈ l := by
  rcases mem_foldl_emplace l [] x h with h | h
  · simp at h
  · exact h

/-! ## mapInsertAll only looks at keys: it commutes with value maps -/

/-- Map a key-dependent function over the values of an association list. -/
def mapSnd (g : String → α → β) (l : List (String × α)) : List (String × β) :=
  l.map (fun x => (x.1, g x.1 x.2))

theorem mapSnd_nil (g : String → α → β) : mapSnd g [] = [] := rfl

theorem mapSnd_cons (g : String → α → β) (k : String) (v : α)
    (l : List (String × α)) :
    mapSnd g ((k, v) :: l) = (k, g k v) :: mapSnd g l := rfl

theorem emplace_mapSnd (g : String → α → β) (k : String) (v : α) :
    ∀ m : List (String × α),
      emplace k (g k v) (mapSnd g m) = mapSnd g (emplace k v m) := by
  intro m
  induction m with
  | nil => rfl
  | cons hd tl ih =>
    obtain ⟨k₂, v₂⟩ := hd
    rw [mapSnd_cons]
    simp only [emplace]
    split
    · rw [mapSnd_cons, mapSnd_cons]
    · split
      · rw [mapSnd_cons]
      · rw [mapSnd_cons, ih]

theorem foldl_emplace_mapSnd (g : String → α → β) :
    ∀ (l acc : List (String × α)),
      (mapSnd g l).foldl (fun m e => emplace e.1 e.2 m) (mapSnd g acc) =
        mapSnd g (l.foldl (fun m e => emplace e.1 e.2 m) acc) := by
  intro l
  induction l with
  | nil => intro acc; rfl
  | cons hd tl ih =>
    intro acc
    obtain ⟨k, v⟩ := hd
    simp only [mapSnd_cons, List.foldl_cons]
    rw [emplace_mapSnd g k v acc]
    exact ih (emplace k v acc)

theorem mapInsertAll_mapSnd (g : String → α → β) (l : List (String × α)) :
    mapInsertAll (mapSnd g l) = mapSnd g (mapInsertAll l) := by
  have := foldl_emplace_mapSnd g l []
  simpa [mapInsertAll, mapSnd] using this

theorem mapSnd_mapSnd (g : String → β → γ) (h : String → α → β)
    (l : List (String × α)) :
    mapSnd g (mapSnd h l) = mapSnd (fun n c => g n (h n c)) l := by
  simp [mapSnd, List.map_map, Function.comp_def]

theorem mapSnd_congr {g h : String → α → β} {l : List (String × α)}
    (he : ∀ x ∈ l, g x.1 x.2 = h x.1 x.2) : mapSnd g l = mapSnd h l :=
  List.map_congr_left (fun x hx => by rw [he x hx])

/-! ## Induction over accessor trees -/

mutual

/-- Induction over trees, with the hypothesis available for every child of
a directory. -/
theorem FSObject.treeInd {motive : FSObject → Prop}
    (hreg : ∀ e c, motive (FSObject.regular e c))
    (hdir : ∀ es, (∀ nc ∈ es, motive (Prod.snd nc)) → motive (FSObject.directory es))
    (hsym : ∀ s, motive (FSObject.symlink s))
    (hmisc : motive FSObject.misc) : ∀ t, motive t
  | .regular e c => hreg e c
  | .directory es => hdir es (FSObject.treeIndEntries hreg hdir hsym hmisc es)
  | .symlink s => hsym s
  | .misc => hmisc

theorem FSObject.treeIndEntries {motive : FSObject → Prop}
    (hreg : ∀ e c, motive (FSObject.regular e c))
    (hdir : ∀ es, (∀ nc ∈ es, motive (Prod.snd nc)) → motive (FSObject.directory es))
    (hsym : ∀ s, motive (FSObject.symlink s))
    (hmisc : motive FSObject.misc) :
    ∀ l : List (String × FSObject), ∀ nc ∈ l, motive (Prod.snd nc)
  | [] => by
    intro nc hnc
    exact absurd hnc (List.not_mem_nil nc)
  | (_, c) :: rest => by
    intro nc hnc
    rcases List.mem_cons.mp hnc with h | h
    · rw [h]
      exact FSObject.treeInd hreg hdir hsym hmisc c
    · exact FSObject.treeIndEntries hreg hdir hsym hmisc rest nc h

end

/-! ## The serializer only sees the sorted form of each directory -/

theorem renderEntries_eq_mapSnd (filter : String → Bool) (path : CanonPath) :
    ∀ l, renderEntries filter path l =
      mapSnd (fun name child => dump filter (path.push name) child) l := by
  intro l
  induction l with
  | nil => rfl
  | cons hd tl ih =>
    obtain ⟨name, child⟩ := hd
    rw [renderEntries, mapSnd_cons, ih]

theorem dump_normalizeTree (filter : String → Bool) :
    ∀ t : FSObject, ∀ path, dump filter path (normalizeTree t) = dump filter path t := by
  intro t
  induction t using FSObject.treeInd with
  | hreg e c => intro path; rfl
  | hsym s => intro path; rfl
  | hmisc => intro path; rfl
  | hdir es ih =>
    intro path
    have hnorm : ∀ l : List (String × FSObject),
        normalizeEntries l = mapSnd (fun _ c => normalizeTree c) l := by
      intro l
      induction l with
      | nil => rfl
      | cons hd tl ih₂ =>
        obtain ⟨n, c⟩ := hd
        rw [normalizeEntries, mapSnd_cons, ih₂]
    show (assembleEntries filter path
        (mapInsertAll (renderEntries filter path
          (mapInsertAll (normalizeEntries es))))).map
        (fun body => wStr (str "(") ++ wStr (str "type") ++
          wStr (str "directory") ++ body ++ wStr (str ")")) =
      (assembleEntries filter path
        (mapInsertAll (renderEntries filter path es))).map
        (fun body => wStr (str "(") ++ wStr (str "type") ++
          wStr (str "directory") ++ body ++ wStr (str ")"))
    rw [renderEntries_eq_mapSnd, renderEntries_eq_mapSnd, hnorm]
    have e₁ : mapInsertAll (mapSnd
          (fun name child => dump filter (path.push name) child)
          (mapInsertAll (mapSnd (fun _ c => normalizeTree c) es))) =
        mapSnd (fun name child => dump filter (path.push name) child)
          (mapInsertAll es) := by
      rw [mapInsertAll_mapSnd, mapInsertAll_idem, mapInsertAll_mapSnd,
        mapSnd_mapSnd]
      exact mapSnd_congr (fun x hx => ih x (mem_mapInsertAll hx) (path.push x.1))
    rw [e₁, mapInsertAll_mapSnd]

/-- dumpPath output depends only on the canonical form of the tree. -/
theorem dumpPath_normalizeTree (filter : String → Bool) (path : CanonPath)
    (t : FSObject) : dumpPath filter path (normalizeTree t) = dumpPath filter path t := by
  rw [dumpPath, dumpPath, dump_normalizeTree]

/-! ## Rendered path lengths and filter congruence

Every path the serializer hands to the filter belongs to a proper
descendant of the dump root, so its rendered form is strictly longer than
the rendered root. -/

theorem abs_push (p : CanonPath) (n : String) :
    (p.push n).abs =
      (if p.segments.isEmpty then "" else p.abs) ++ "/" ++ n := by
  show CanonPath.abs ⟨p.segments ++ [n]⟩ = _
  have h₁ : (p.segments ++ [n]).isEmpty = false := by
    cases p.segments <;> rfl
  rw [CanonPath.abs, h₁]
  simp only [Bool.false_eq_true, if_false, List.foldl_append, List.foldl_cons,
    List.foldl_nil]
  cases hp : p.segments.isEmpty
  · rw [CanonPath.abs, hp]
    simp
  · have : p.segments = [] := by
      cases hs : p.segments
      · rfl
      · rw [hs] at hp; exact absurd hp (by simp [List.isEmpty])
    rw [this]
    simp

theorem abs_length_lt (p : CanonPath) (n : String) (hn : n.length ≠ 0) :
    p.abs.length < (p.push n).abs.length := by
  have h₂ : ("/" : String).length = 1 := rfl
  have h₀ : ("" : String).length = 0 := rfl
  rw [abs_push]
  cases hp : p.segments.isEmpty
  · rw [if_neg (by simp)]
    rw [String.length_append, String.length_append]
    omega
  · rw [if_pos rfl]
    have h₃ : p.abs = "/" := by
      rw [CanonPath.abs, hp]
      rfl
    rw [String.length_append, String.length_append, h₃, h₂, h₀]
    omega

theorem wfEntries_mem :
    ∀ {l : List (String × FSObject)}, wfEntries l = true →
      ∀ x ∈ l, x.1.length ≠ 0 ∧ wfTree x.2 = true := by
  intro l
  induction l with
  | nil => intro _ x hx; exact absurd hx (List.not_mem_nil x)
  | cons hd tl ih =>
    intro hwf x hx
    obtain ⟨n, c⟩ := hd
    rw [wfEntries] at hwf
    simp only [Bool.and_eq_true, bne_iff_ne, ne_eq] at hwf
    obtain ⟨⟨hn, hc⟩, htl⟩ := hwf
    rcases List.mem_cons.mp hx with hx | hx
    · rw [hx]
      exact ⟨by simpa using hn, hc⟩
    · exact ih htl x hx

theorem assembleEntries_congr (f₁ f₂ : String → Bool) (q : CanonPath) :
    ∀ l : List (String × Option (List Nat)),
      (∀ x ∈ l, f₁ (CanonPath.abs (q.push x.1)) = f₂ (CanonPath.abs (q.push x.1))) →
      assembleEntries f₁ q l = assembleEntries f₂ q l := by
  intro l
  induction l with
  | nil => intro _; rfl
  | cons hd tl ih =>
    intro h
    obtain ⟨name, node⟩ := hd
    rw [assembleEntries, assembleEntries,
      h (name, node) (List.mem_cons_self _ _),
      ih (fun x hx => h x (List.mem_cons_of_mem _ hx))]

/-- Two filters agreeing on every rendered path longer than L produce the
same dump from any root whose rendered form has length at least L: the
walk never consults the filter on a string that short. -/
theorem dump_congr_above (f₁ f₂ : String → Bool) (L : Nat)
    (hf : ∀ s : String, L < s.length → f₁ s = f₂ s) :
    ∀ t, wfTree t = true → ∀ q : CanonPath, L ≤ q.abs.length →
      dump f₁ q t = dump f₂ q t := by
  intro t
  induction t using FSObject.treeInd with
  | hreg e c => intro _ q _; rfl
  | hsym s => intro _ q _; rfl
  | hmisc => intro _ q _; rfl
  | hdir es ih =>
    intro hwf q hq
    have hwfes : wfEntries es = true := hwf
    have hren : renderEntries f₁ q es = renderEntries f₂ q es := by
      rw [renderEntries_eq_mapSnd, renderEntries_eq_mapSnd]
      refine mapSnd_congr (fun x hx => ?_)
      obtain ⟨hn, hc⟩ := wfEntries_mem hwfes x hx
      exact ih x hx hc (q.push x.1)
        (le_of_lt (lt_of_le_of_lt hq (abs_length_lt q x.1 hn)))
    show (assembleEntries f₁ q (mapInsertAll (renderEntries f₁ q es))).map _ =
      (assembleEntries f₂ q (mapInsertAll (renderEntries f₂ q es))).map _
    rw [← hren]
    congr 1
    refine assembleEntries_congr f₁ f₂ q _ (fun x hx => ?_)
    have hx₂ := mem_mapInsertAll hx
    rw [renderEntries_eq_mapSnd] at hx₂
    obtain ⟨y, hy, hxy⟩ := List.mem_map.mp hx₂
    have hn : y.1.length ≠ 0 := (wfEntries_mem hwfes y hy).1
    have : x.1 = y.1 := by rw [← hxy]
    rw [this]
    exact hf _ (lt_of_le_of_lt hq (abs_length_lt q y.1 hn))

/-- Every successful dump opens with the record of the root node itself:
the stream never starts empty. -/
theorem dump_head (filter : String → Bool) (path : CanonPath) :
    ∀ (t : FSObject) (o : List Nat), dump filter path t = some o →
      ∃ r, o = wStr (str "(") ++ r := by
  intro t
  cases t with
  | regular e c =>
    intro o h
    simp only [dump, Option.some.injEq] at h
    refine ⟨wStr (str "type") ++ wStr (str "regular") ++
      (if e then wStr (str "executable") ++ wStr (str "") else []) ++
      wStr (str "contents") ++ wInt c.length ++ c ++
      padding c.length ++ wStr (str ")"), ?_⟩
    rw [← h]
    simp [List.append_assoc]
  | directory es =>
    intro o h
    simp only [dump] at h
    obtain ⟨body, _, hwrap⟩ := Option.map_eq_some'.mp h
    refine ⟨wStr (str "type") ++ wStr (str "directory") ++ body ++
      wStr (str ")"), ?_⟩
    rw [← hwrap]
    simp [List.append_assoc]
  | symlink s =>
    intro o h
    simp only [dump, Option.some.injEq] at h
    refine ⟨wStr (str "type") ++ wStr (str "symlink") ++ wStr (str "target") ++
      wStr (str s) ++ wStr (str ")"), ?_⟩
    rw [← h]
    simp [List.append_assoc]
  | misc =>
    intro o h
    simp [dump] at h

/-! ## Injectivity of the decimal rendering of the accessor number -/

/-- Decimal digits of a number, most significant first. -/
def myDigits (n : Nat) : List Char :=
  if n < 10 then [Nat.digitChar n]
  else myDigits (n / 10) ++ [Nat.digitChar (n % 10)]
termination_by n
decreasing_by exact Nat.div_lt_self (by omega) (by omega)

/-- Read a digit list back as a number. -/
def digitsVal (l : List Char) : Nat :=
  l.foldl (fun acc c => acc * 10 + (c.toNat - 48)) 0

theorem digitChar_toNat (d : Nat) (h : d < 10) :
    (Nat.digitChar d).toNat = 48 + d := by
  interval_cases d <;> rfl

theorem toDigitsCore_eq_myDigits :
    ∀ (fuel n : Nat) (ds : List Char), n < fuel →
      Nat.toDigitsCore 10 fuel n ds = myDigits n ++ ds := by
  intro fuel
  induction fuel with
  | zero => intro n ds h; omega
  | succ fuel ih =>
    intro n ds h
    rw [Nat.toDigitsCore]
    by_cases h₂ : n / 10 = 0
    · have h₃ : n < 10 := (Nat.div_eq_zero_iff (by omega)).mp h₂
      rw [if_pos h₂, myDigits, if_pos h₃, Nat.mod_eq_of_lt h₃]
      rfl
    · have h₃ : ¬ n < 10 := by
        intro h₄
        exact h₂ ((Nat.div_eq_zero_iff (by omega)).mpr h₄)
      rw [if_neg h₂, ih (n / 10) _ (by omega)]
      rw [myDigits.eq_1 n, if_neg h₃]
      simp

theorem digitsVal_myDigits : ∀ n, digitsVal (myDigits n) = n := by
  intro n
  induction n using Nat.strong_induction_on with
  | _ n ih =>
    rw [myDigits]
    split
    · rename_i h
      show 0 * 10 + ((Nat.digitChar n).toNat - 48) = n
      rw [digitChar_toNat n h]
      omega
    · rename_i h
      rw [digitsVal, List.foldl_append]
      have hmod : n % 10 < 10 := Nat.mod_lt _ (by omega)
      have hdiv : n / 10 < n := Nat.div_lt_self (by omega) (by omega)
      show (digitsVal (myDigits (n / 10))) * 10 +
        ((Nat.digitChar (n % 10)).toNat - 48) = n
      rw [ih (n / 10) hdiv, digitChar_toNat _ hmod]
      omega

theorem reprNat_inj : Function.Injective Nat.repr := by
  intro a b h
  have ha : Nat.repr a = (myDigits a).asString := by
    rw [Nat.repr, Nat.toDigits,
      toDigitsCore_eq_myDigits (a + 1) a [] (by omega)]
    simp
  have hb : Nat.repr b = (myDigits b).asString := by
    rw [Nat.repr, Nat.toDigits,
      toDigitsCore_eq_myDigits (b + 1) b [] (by omega)]
    simp
  rw [ha, hb] at h
  have h₂ : myDigits a = myDigits b := by
    have := congrArg String.data h
    simpa [List.asString] using this
  have := congrArg digitsVal h₂
  rwa [digitsVal_myDigits, digitsVal_myDigits] at this

/-! ## Concrete fixtures used by the claim theorems -/

/-- The concrete scenario tree: one executable regular file run.sh with
content "echo hi" and one symlink link pointing to target, enumerated in an
order that is NOT sorted (run.sh first). -/
def tree1 : FSObject :=
  .directory [("run.sh", .regular true (str "echo hi")),
    ("link", .symlink "target")]

/-- One logical tree in its two possible enumeration orders. -/
def treeOrderA : FSObject :=
  .directory [("b", .regular false (str "x")), ("a", .symlink "t")]

def treeOrderB : FSObject :=
  .directory [("a", .symlink "t"), ("b", .regular false (str "x"))]

/-- A physical filesystem with nothing in it; symlink resolution always
fails, so makeAbsPath falls back to the concatenation. -/
def fsEmpty : RealFS where
  resolveSymlinks := fun _ => none
  readFile := fun p => .error (.doesNotExist p)
  pathExists := fun _ => false
  lstat := fun p => .error (.doesNotExist p)
  readDirectory := fun _ => .ok []
  readLink := fun p => .error (.doesNotExist p)

/-- A filesystem holding the directory /root and the regular file
/root/data, with no symlinks anywhere. -/
def fsPlain : RealFS where
  resolveSymlinks := fun _ => none
  readFile := fun p =>
    if p = ⟨["root", "data"]⟩ then .ok (str "hi")
    else .error (.doesNotExist p)
  pathExists := fun p => p == ⟨["root", "data"]⟩ || p == ⟨["root"]⟩
  lstat := fun p =>
    if p = ⟨["root", "data"]⟩ then .ok ⟨.tRegular, false⟩
    else if p = ⟨["root"]⟩ then .ok ⟨.tDirectory, false⟩
    else .error (.doesNotExist p)
  readDirectory := fun p =>
    if p = ⟨["root"]⟩ then .ok [("data", .dtReg)] else .ok []
  readLink := fun p => .error (.doesNotExist p)

/-- A filesystem where /root/link is a symlink to the regular file
/root/secret: resolution maps /root/link to /root/secret and leaves every
other path alone. -/
def fsLink : RealFS where
  resolveSymlinks := fun p =>
    if p = ⟨["root", "link"]⟩ then some ⟨["root", "secret"]⟩ else some p
  readFile := fun p =>
    if p = ⟨["root", "secret"]⟩ then .ok (str "s3cret")
    else .error (.doesNotExist p)
  pathExists := fun p =>
    p == ⟨["root", "link"]⟩ || p == ⟨["root", "secret"]⟩ || p == ⟨["root"]⟩
  lstat := fun p =>
    if p = ⟨["root", "secret"]⟩ then .ok ⟨.tRegular, false⟩
    else if p = ⟨["root"]⟩ then .ok ⟨.tDirectory, false⟩
    else .error (.doesNotExist p)
  readDirectory := fun p =>
    if p = ⟨["root"]⟩ then .ok [("link", .dtLnk), ("secret", .dtReg)]
    else .ok []
  readLink := fun p =>
    if p = ⟨["root", "link"]⟩ then .ok "secret"
    else .error (.doesNotExist p)

/-- A sandbox accessor rooted at /root whose configured allow-list starts
empty: every path is initially denied. -/
def accLocked : FSInputAccessorImpl := ⟨⟨["root"]⟩, some []⟩

/-- The in-memory accessor populated with the single mapping
/foo.txt to "hi". -/
def mem7 : MemoryInputAccessorImpl :=
  MemoryInputAccessorImpl.addFile ⟨[]⟩ ⟨["foo.txt"]⟩ "hi"

/-! ## The claims -/

/-- Claim C1: dumping (with a filter accepting everything) a directory
holding the executable regular file run.sh with the 7 content bytes of
"echo hi" and the symlink link pointing at target yields the magic header,
then a directory record whose entries come sorted (link before run.sh,
although the accessor enumerated run.sh first), the symlink entry carrying
the target string, and the file entry carrying the executable marker, the
content length 7, the 7 literal bytes and exactly one zero byte of padding
up to the 8-byte boundary. -/
theorem dumpPath_concrete_scenario :
    dumpPath (fun _ => true) ⟨[]⟩ tree1 =
      some (wStr (str narVersionMagic1) ++
        (wStr (str "(") ++ wStr (str "type") ++ wStr (str "directory") ++
          (wStr (str "entry") ++ wStr (str "(") ++ wStr (str "name") ++
            wStr (str "link") ++ wStr (str "node") ++
            (wStr (str "(") ++ wStr (str "type") ++ wStr (str "symlink") ++
              wStr (str "target") ++ wStr (str "target") ++ wStr (str ")")) ++
            wStr (str ")") ++
          (wStr (str "entry") ++ wStr (str "(") ++ wStr (str "name") ++
            wStr (str "run.sh") ++ wStr (str "node") ++
            (wStr (str "(") ++ wStr (str "type") ++ wStr (str "regular") ++
              wStr (str "executable") ++ wStr (str "") ++
              wStr (str "contents") ++ wInt 7 ++ str "echo hi" ++ [0] ++
              wStr (str ")")) ++
            wStr (str ")") ++ [])) ++
          wStr (str ")"))) := by
  decide

/-- Claim C2: serializing any tree twice with the same filter gives the
same bytes (the embedding is a pure function of accessor content, root and
filter), and the output depends only on the canonical per-directory sorted
form of the tree, so any two enumeration orders of the same logical tree
serialize identically. -/
theorem dumpPath_deterministic_enumeration_invariant :
    ∀ (filter : String → Bool) (p : CanonPath) (t t₁ t₂ : FSObject),
      dumpPath filter p t = dumpPath filter p t ∧
      dumpPath filter p (normalizeTree t) = dumpPath filter p t ∧
      (normalizeTree t₁ = normalizeTree t₂ →
        dumpPath filter p t₁ = dumpPath filter p t₂) := by
  intro filter p t t₁ t₂
  refine ⟨rfl, dumpPath_normalizeTree filter p t, fun h => ?_⟩
  rw [← dumpPath_normalizeTree filter p t₁, h, dumpPath_normalizeTree]

/-- Witness for C2: the two enumeration orders of one two-entry directory
serialize to the same stream. -/
theorem dumpPath_enumeration_witness :
    dumpPath (fun _ => true) ⟨[]⟩ treeOrderA =
      dumpPath (fun _ => true) ⟨[]⟩ treeOrderB :=
  (dumpPath_deterministic_enumeration_invariant (fun _ => true) ⟨[]⟩
    treeOrderA treeOrderA treeOrderB).2.2 rfl

/-- Claim C7: the in-memory accessor populated with /foo.txt mapping to
"hi" returns "hi" from readFile, true from pathExists, Unimplemented from
lstat, Unimplemented from readLink on every path, and the empty entry set
from readDirectory on every path. -/
theorem memory_accessor_scenario :
    MemoryInputAccessorImpl.readFile mem7 ⟨["foo.txt"]⟩ = .ok "hi" ∧
    MemoryInputAccessorImpl.pathExists mem7 ⟨["foo.txt"]⟩ = true ∧
    MemoryInputAccessorImpl.lstat mem7 ⟨["foo.txt"]⟩ =
      .error (.unimplemented "MemoryInputAccessor::lstat") ∧
    (∀ p, MemoryInputAccessorImpl.readLink mem7 p =
      .error (.unimplemented "MemoryInputAccessor::readLink")) ∧
    (∀ p, MemoryInputAccessorImpl.readDirectory mem7 p = .ok []) :=
  ⟨rfl, rfl, rfl, fun _ => rfl, fun _ => rfl⟩

/-- Claim C8: a scheme that keeps the default classification queries
answers isDirect true, isLocked false and isRelative none on every
input. -/
theorem inputScheme_default_classifications :
    ∀ (u : String → Option Input)
      (a : List (String × AttrValue) → Option Input) (input : Input),
      ({ inputFromURL := u, inputFromAttrs := a } : InputScheme).isDirect
          input = true ∧
      ({ inputFromURL := u, inputFromAttrs := a } : InputScheme).isLocked
          input = false ∧
      ({ inputFromURL := u, inputFromAttrs := a } : InputScheme).isRelative
          input = none :=
  fun _ _ _ => ⟨rfl, rfl, rfl⟩

/-! ## Small path facts used by the sandbox claims -/

theorem isWithin_append (root p : CanonPath) :
    (root.append p).isWithin root = true :=
  List.isPrefixOf_iff_prefix.mpr ⟨p.segments, rfl⟩

theorem isWithin_self (p : CanonPath) : p.isWithin p = true :=
  List.isPrefixOf_iff_prefix.mpr (List.prefix_refl _)

theorem dropRoot_append (root p : CanonPath) :
    (root.append p).dropRoot root = p := by
  rw [CanonPath.dropRoot, CanonPath.append]
  have : (root.segments ++ p.segments).drop root.segments.length =
      p.segments := List.drop_left _ _
  rw [this]

/-- Claim C3: the sandbox access decision.  A path outside the root is
denied outright (the decision is a pure function of the accessor state and
never touches the filesystem, as its type shows); a path within the root
is measured against the allow-list when one is configured — allowed
exactly when its root-relative form is contained in, or is an ancestor of,
some allowed entry — and is always allowed when no allow-list is
configured. -/
theorem isAllowed_characterization :
    ∀ (root : CanonPath) (al : List CanonPath) (opt : Option (List CanonPath))
      (p : CanonPath),
      (p.isWithin root = false →
        FSInputAccessorImpl.isAllowed ⟨root, opt⟩ p = false) ∧
      (p.isWithin root = true →
        (FSInputAccessorImpl.isAllowed ⟨root, some al⟩ p = true ↔
          ∃ a ∈ al, (p.dropRoot root).isWithin a = true ∨
            a.isWithin (p.dropRoot root) = true)) ∧
      (p.isWithin root = true →
        FSInputAccessorImpl.isAllowed ⟨root, none⟩ p = true) := by
  intro root al opt p
  refine ⟨?_, ?_, ?_⟩
  · intro h
    rw [FSInputAccessorImpl.isAllowed]
    simp [h]
  · intro h
    have he : FSInputAccessorImpl.isAllowed ⟨root, some al⟩ p =
        (p.dropRoot root).isAllowed al := by
      rw [FSInputAccessorImpl.isAllowed]
      cases hX : (p.dropRoot root).isAllowed al <;> simp [h, hX]
    rw [he, CanonPath.isAllowed, List.any_eq_true]
    simp only [Bool.or_eq_true]
  · intro h
    rw [FSInputAccessorImpl.isAllowed]
    simp [h]

/-- Witness for C3 at concrete inputs: /other is outside /root and denied;
/root/ok/sub is within /root and its relative form ok/sub lies within the
allowed entry ok; with no allow-list /root/x is allowed. -/
theorem isAllowed_characterization_witness :
    FSInputAccessorImpl.isAllowed ⟨⟨["root"]⟩, some []⟩ ⟨["other"]⟩ = false ∧
    (FSInputAccessorImpl.isAllowed ⟨⟨["root"]⟩, some [⟨["ok"]⟩]⟩
        ⟨["root", "ok", "sub"]⟩ = true ↔
      ∃ a ∈ [(⟨["ok"]⟩ : CanonPath)],
        ((⟨["root", "ok", "sub"]⟩ : CanonPath).dropRoot ⟨["root"]⟩).isWithin
            a = true ∨
          a.isWithin ((⟨["root", "ok", "sub"]⟩ : CanonPath).dropRoot
            ⟨["root"]⟩) = true) ∧
    FSInputAccessorImpl.isAllowed ⟨⟨["root"]⟩, none⟩ ⟨["root", "x"]⟩ = true :=
  ⟨(isAllowed_characterization ⟨["root"]⟩ [] (some []) ⟨["other"]⟩).1
      (by decide),
   (isAllowed_characterization ⟨["root"]⟩ [⟨["ok"]⟩] (some [⟨["ok"]⟩])
      ⟨["root", "ok", "sub"]⟩).2.1 (by decide),
   (isAllowed_characterization ⟨["root"]⟩ [] none ⟨["root", "x"]⟩).2.2
      (by decide)⟩

/-- Claim C4: on a denied path, pathExists answers false without any
error (it is a total boolean, and it also answers false when the
underlying filesystem lacks the path), while lstat and readFile fail with
the Forbidden error naming the resolved path; the Forbidden result does
not depend on any underlying read operation — any filesystem with the same
symlink resolution produces the identical error. -/
theorem denied_operations_behavior :
    ∀ (fs : RealFS) (a : FSInputAccessorImpl) (p : CanonPath),
      (fs.pathExists (FSInputAccessorImpl.makeAbsPath fs a p) = false →
        FSInputAccessorImpl.pathExists fs a p = false) ∧
      (FSInputAccessorImpl.isAllowed a
          (FSInputAccessorImpl.makeAbsPath fs a p) = false →
        FSInputAccessorImpl.pathExists fs a p = false ∧
        FSInputAccessorImpl.lstat fs a p =
          .error (.forbidden (FSInputAccessorImpl.makeAbsPath fs a p)) ∧
        FSInputAccessorImpl.readFile fs a p =
          .error (.forbidden (FSInputAccessorImpl.makeAbsPath fs a p)) ∧
        (∀ fs₂ : RealFS, fs₂.resolveSymlinks = fs.resolveSymlinks →
          FSInputAccessorImpl.lstat fs₂ a p =
            .error (.forbidden (FSInputAccessorImpl.makeAbsPath fs a p)) ∧
          FSInputAccessorImpl.readFile fs₂ a p =
            .error (.forbidden (FSInputAccessorImpl.makeAbsPath fs a p)))) := by
  intro fs a p
  constructor
  · intro h
    rw [FSInputAccessorImpl.pathExists]
    simp only [FSInputAccessorImpl.makeAbsPath] at h ⊢
    rw [h, Bool.and_false]
  · intro h
    have habs : ∀ fs₂ : RealFS, fs₂.resolveSymlinks = fs.resolveSymlinks →
        FSInputAccessorImpl.makeAbsPath fs₂ a p =
          FSInputAccessorImpl.makeAbsPath fs a p := by
      intro fs₂ h₂
      rw [FSInputAccessorImpl.makeAbsPath, FSInputAccessorImpl.makeAbsPath,
        h₂]
    refine ⟨?_, ?_, ?_, ?_⟩
    · rw [FSInputAccessorImpl.pathExists]
      simp only [FSInputAccessorImpl.makeAbsPath] at h ⊢
      rw [h, Bool.false_and]
    · rw [FSInputAccessorImpl.lstat, FSInputAccessorImpl.checkAllowed]
      simp [h]
    · rw [FSInputAccessorImpl.readFile, FSInputAccessorImpl.checkAllowed]
      simp [h]
    · intro fs₂ h₂
      constructor
      · rw [FSInputAccessorImpl.lstat, FSInputAccessorImpl.checkAllowed,
          habs fs₂ h₂]
        simp [h]
      · rw [FSInputAccessorImpl.readFile, FSInputAccessorImpl.checkAllowed,
          habs fs₂ h₂]
        simp [h]

/-- Witness for C4: the accessor with the empty allow-list denies /x, so
pathExists answers false and lstat and readFile fail Forbidden on the
resolved path /root/x. -/
theorem denied_operations_witness :
    FSInputAccessorImpl.pathExists fsEmpty accLocked ⟨["x"]⟩ = false ∧
    FSInputAccessorImpl.lstat fsEmpty accLocked ⟨["x"]⟩ =
      .error (.forbidden ⟨["root", "x"]⟩) ∧
    FSInputAccessorImpl.readFile fsEmpty accLocked ⟨["x"]⟩ =
      .error (.forbidden ⟨["root", "x"]⟩) := by
  have h := (denied_operations_behavior fsEmpty accLocked ⟨["x"]⟩).2
    (by decide)
  exact ⟨h.1, h.2.1, h.2.2.1⟩

/-- Claim C5: makeAbsPath yields the full resolution of root plus path
when resolution succeeds, and exactly when resolution fails it yields the
unresolved concatenation itself; it is total and never partial. -/
theorem makeAbsPath_resolve_or_fallback :
    ∀ (fs : RealFS) (a : FSInputAccessorImpl) (p : CanonPath),
      (∀ r, fs.resolveSymlinks (a.root.append p) = some r →
        FSInputAccessorImpl.makeAbsPath fs a p = r) ∧
      (fs.resolveSymlinks (a.root.append p) = none →
        FSInputAccessorImpl.makeAbsPath fs a p = a.root.append p) := by
  intro fs a p
  constructor
  · intro r h
    rw [FSInputAccessorImpl.makeAbsPath]
    simp [h]
  · intro h
    rw [FSInputAccessorImpl.makeAbsPath]
    simp [h]

/-- Witness for C5: under the empty filesystem resolution fails and the
concatenation comes back; under the symlinked filesystem /root/link
resolves fully to /root/secret. -/
theorem makeAbsPath_witness :
    FSInputAccessorImpl.makeAbsPath fsEmpty accLocked ⟨["x"]⟩ =
      ⟨["root", "x"]⟩ ∧
    FSInputAccessorImpl.makeAbsPath fsLink accLocked ⟨["link"]⟩ =
      ⟨["root", "secret"]⟩ :=
  ⟨(makeAbsPath_resolve_or_fallback fsEmpty accLocked ⟨["x"]⟩).2 (by decide),
   (makeAbsPath_resolve_or_fallback fsLink accLocked ⟨["link"]⟩).1
      ⟨["root", "secret"]⟩ (by decide)⟩

/-- Counterexample to claim C6 as stated: under the filesystem where
/root/link is a symlink to /root/secret, the relative path link lies under
the root and is physically present (its resolved form exists on disk), yet
after allowPath link the readFile of link still fails Forbidden — symlink
resolution re-points the sandbox check at /root/secret, which the
allow-list entry link does not cover. -/
theorem allowPath_symlink_counterexample :
    (accLocked.root.append ⟨["link"]⟩).isWithin accLocked.root = true ∧
    fsLink.pathExists
      (FSInputAccessorImpl.makeAbsPath fsLink accLocked ⟨["link"]⟩) = true ∧
    FSInputAccessorImpl.readFile fsLink accLocked ⟨["link"]⟩ =
      .error (.forbidden ⟨["root", "secret"]⟩) ∧
    FSInputAccessorImpl.readFile fsLink
      (FSInputAccessorImpl.allowPath accLocked ⟨["link"]⟩) ⟨["link"]⟩ =
      .error (.forbidden ⟨["root", "secret"]⟩) :=
  ⟨rfl, rfl, rfl, rfl⟩

/-- Claim C6 as amended: on an accessor with a configured allow-list,
allowPath p followed by any read operation on p succeeds whenever p is
otherwise present, provided symlink resolution maps root plus p to itself
or fails (that is, no symlink redirects it); each operation then delegates
to the underlying filesystem at the concatenated path, so it succeeds
exactly when the path is physically served, regardless of how the
allow-list denied it before.  On an accessor without access control,
allowPath is a no-op and reads are unaffected. -/
theorem allowPath_grants_access_amended :
    ∀ (fs : RealFS) (root : CanonPath) (al : List CanonPath) (p : CanonPath),
      ((fs.resolveSymlinks (root.append p) = none ∨
        fs.resolveSymlinks (root.append p) = some (root.append p)) →
        (FSInputAccessorImpl.readFile fs
            (FSInputAccessorImpl.allowPath ⟨root, some al⟩ p) p =
          fs.readFile (root.append p) ∧
        FSInputAccessorImpl.lstat fs
            (FSInputAccessorImpl.allowPath ⟨root, some al⟩ p) p =
          fs.lstat (root.append p) ∧
        FSInputAccessorImpl.readLink fs
            (FSInputAccessorImpl.allowPath ⟨root, some al⟩ p) p =
          fs.readLink (root.append p) ∧
        FSInputAccessorImpl.pathExists fs
            (FSInputAccessorImpl.allowPath ⟨root, some al⟩ p) p =
          fs.pathExists (root.append p) ∧
        (∀ es, fs.readDirectory (root.append p) = .ok es →
          ∃ out, FSInputAccessorImpl.readDirectory fs
            (FSInputAccessorImpl.allowPath ⟨root, some al⟩ p) p = .ok out))) ∧
      (∀ b : FSInputAccessorImpl, b.allowedPaths = none →
        FSInputAccessorImpl.allowPath b p = b) := by
  intro fs root al p
  constructor
  · intro hres
    have hAcc : FSInputAccessorImpl.allowPath ⟨root, some al⟩ p =
        ⟨root, some (p :: al)⟩ := rfl
    have hAbs : FSInputAccessorImpl.makeAbsPath fs ⟨root, some (p :: al)⟩ p =
        root.append p := by
      rw [FSInputAccessorImpl.makeAbsPath]
      rcases hres with h | h <;> simp [h]
    have hAllowed : FSInputAccessorImpl.isAllowed ⟨root, some (p :: al)⟩
        (root.append p) = true := by
      rw [FSInputAccessorImpl.isAllowed]
      simp only [isWithin_append, Bool.not_true, Bool.false_eq_true,
        if_false]
      rw [CanonPath.isAllowed]
      simp [dropRoot_append, isWithin_self]
    refine ⟨?_, ?_, ?_, ?_, ?_⟩
    · rw [hAcc, FSInputAccessorImpl.readFile, FSInputAccessorImpl.checkAllowed]
      simp [hAbs, hAllowed]
    · rw [hAcc, FSInputAccessorImpl.lstat, FSInputAccessorImpl.checkAllowed]
      simp [hAbs, hAllowed]
    · rw [hAcc, FSInputAccessorImpl.readLink, FSInputAccessorImpl.checkAllowed]
      simp [hAbs, hAllowed]
    · rw [hAcc, FSInputAccessorImpl.pathExists]
      simp [hAbs, hAllowed]
    · intro es hes
      rw [hAcc, FSInputAccessorImpl.readDirectory,
        FSInputAccessorImpl.checkAllowed]
      simp only [hAbs, hAllowed, Bool.not_true, Bool.false_eq_true, if_false,
        hes]
      exact ⟨_, rfl⟩
  · intro b hb
    rw [FSInputAccessorImpl.allowPath, hb]

/-- Witness for the amended C6: on the symlink-free filesystem the file
/root/data is denied by the empty allow-list, and after allowPath data the
read succeeds with the content. -/
theorem allowPath_grants_access_witness :
    FSInputAccessorImpl.readFile fsPlain accLocked ⟨["data"]⟩ =
      .error (.forbidden ⟨["root", "data"]⟩) ∧
    FSInputAccessorImpl.readFile fsPlain
      (FSInputAccessorImpl.allowPath accLocked ⟨["data"]⟩) ⟨["data"]⟩ =
      .ok (str "hi") := by
  constructor
  · rfl
  · have h := ((allowPath_grants_access_amended fsPlain ⟨["root"]⟩ []
      ⟨["data"]⟩).1 (Or.inl rfl)).1
    exact h.trans rfl

/-- Claim C9: the sandboxed accessor displays the real absolute
filesystem path of the root plus the canonical path, while the base
(non-materialized) accessor displays the synthetic label made of the fixed
prefix, the decimal accessor number and the canonical path; for a fixed
canonical path the synthetic label determines the accessor number, so
labels are unique per accessor instance (and stable, being functions of
the accessor state and path alone). -/
theorem showPath_rendering_unique :
    ∀ (a : FSInputAccessorImpl) (acc₁ acc₂ : InputAccessor) (p : CanonPath),
      FSInputAccessorImpl.showPath a p = (a.root.append p).abs ∧
      InputAccessor.showPath acc₁ p =
        "/virtual/" ++ Nat.repr acc₁.number ++ p.abs ∧
      (InputAccessor.showPath acc₁ p = InputAccessor.showPath acc₂ p →
        acc₁.number = acc₂.number) := by
  intro a acc₁ acc₂ p
  refine ⟨rfl, rfl, fun h => ?_⟩
  apply reprNat_inj
  have h₂ := congrArg String.data h
  rw [InputAccessor.showPath, InputAccessor.showPath] at h₂
  rw [String.data_append, String.data_append, String.data_append,
    String.data_append] at h₂
  have h₃ := List.append_cancel_right h₂
  have h₄ := List.append_cancel_left h₃
  show String.mk (Nat.repr acc₁.number).data =
    String.mk (Nat.repr acc₂.number).data
  rw [h₄]

/-- Witness for C9: concrete renderings of both accessor kinds, and the
uniqueness implication discharged at equal labels. -/
theorem showPath_rendering_unique_witness :
    FSInputAccessorImpl.showPath accLocked ⟨["x"]⟩ = "/root/x" ∧
    InputAccessor.showPath ⟨5⟩ ⟨["x"]⟩ = "/virtual/5/x" ∧ (5 : Nat) = 5 := by
  have h := showPath_rendering_unique accLocked ⟨5⟩ ⟨5⟩ ⟨["x"]⟩
  refine ⟨?_, ?_, h.2.2 rfl⟩
  · rw [h.1]
    rfl
  · rw [h.2.1]
    rfl

/-- Claim C10: the filter is consulted only on the rendered paths of
directory children, never on the dump root itself — replacing the value of
the filter at the root path changes nothing — and every successful dump
begins with the magic header followed by the opening of the root record,
so a filter can suppress entries but never produce an empty stream. -/
theorem filter_never_consulted_on_root :
    ∀ (filter : String → Bool) (p : CanonPath) (t : FSObject),
      wfTree t = true →
      dumpPath filter p t =
        dumpPath (fun s => if s = p.abs then false else filter s) p t ∧
      (∀ out, dumpPath filter p t = some out →
        ∃ rest, out = wStr (str narVersionMagic1) ++
          (wStr (str "(") ++ rest)) := by
  intro filter p t hwf
  constructor
  · rw [dumpPath, dumpPath]
    have hd : dump filter p t =
        dump (fun s => if s = p.abs then false else filter s) p t := by
      refine dump_congr_above _ _ p.abs.length ?_ t hwf p (le_refl _)
      intro s hs
      rw [if_neg]
      intro he
      rw [he] at hs
      omega
    rw [hd]
  · intro out h
    rw [dumpPath] at h
    obtain ⟨s, hs, hout⟩ := Option.map_eq_some'.mp h
    obtain ⟨r, hr⟩ := dump_head filter p t s hs
    refine ⟨r, ?_⟩
    rw [← hout, hr]

/-- Witness for C10: on the concrete scenario tree, forcing the filter to
false at the rendered root path leaves the stream unchanged. -/
theorem filter_never_consulted_on_root_witness :
    dumpPath (fun _ => true) ⟨[]⟩ tree1 =
      dumpPath (fun s => if s = CanonPath.abs ⟨[]⟩ then false else
        (fun _ => true) s) ⟨[]⟩ tree1 :=
  (filter_never_consulted_on_root (fun _ => true) ⟨[]⟩ tree1 rfl).1
